import Mathlib

/-!
Verification development for the broccoli-scss-lint filter plugin.

The plugin's own code (`lib/index.js`, `dist/index.js`, `dist/test-generators.js`,
and the legacy `index.js`) is shallowly embedded below.  JavaScript values that
can appear in the plugin's option objects are modelled by `JVal`; JS strings are
modelled by `String` (reasoned about through their character lists), JS numbers
by `Int`, and function values by their source text.  External npm dependencies
(json-stable-stringify, md5-hex, minimatch, sass-lint's getConfig, and the
broccoli-persistent-filter host) are out-of-scope collaborators; each is
modelled from its documented interface, as stated in its doc comment.
-/

/-- Model of a JavaScript value as it can occur in the plugin's configuration
objects: null, booleans, numbers (modelled as integers), strings, functions
(represented by their source text, which is what `Function.prototype.toString`
yields), arrays and plain objects (association lists of fields). -/
inductive JVal where
  | null : JVal
  | bool (b : Bool) : JVal
  | num (n : Int) : JVal
  | str (s : String) : JVal
  | fn (src : String) : JVal
  | arr (items : List JVal) : JVal
  | obj (fields : List (String × JVal)) : JVal

/-- Configuration objects are association lists from option names to values. -/
abbrev JObj := List (String × JVal)

/-- Keys of a JS object, in insertion order. -/
def jKeys (o : JObj) : List String := o.map Prod.fst

/-- A JS object literal has no duplicate keys. -/
def nodupKeys (o : JObj) : Prop := (jKeys o).Nodup

instance (o : JObj) : Decidable (nodupKeys o) := by
  unfold nodupKeys; infer_instance

/-- JavaScript truthiness of a modelled value. -/
def jsTruthy : JVal → Bool
  | .null => false
  | .bool b => b
  | .num n => n != 0
  | .str s => !s.isEmpty
  | .fn _ => true
  | .arr _ => true
  | .obj _ => true

/-- Scalar (non-object, non-array, non-function) values: the kinds the spec
calls "scalar options". -/
def isScalar : JVal → Bool
  | .null => true
  | .bool _ => true
  | .num _ => true
  | .str _ => true
  | _ => false

/-- Decimal digit character. -/
def digitChar : Nat → Char
  | 0 => '0' | 1 => '1' | 2 => '2' | 3 => '3' | 4 => '4'
  | 5 => '5' | 6 => '6' | 7 => '7' | 8 => '8' | 9 => '9'
  | _ => '*'

/-- Lowercase hexadecimal digit character, as emitted by JSON.stringify's
unicode escapes. -/
def hexChar : Nat → Char
  | 0 => '0' | 1 => '1' | 2 => '2' | 3 => '3' | 4 => '4'
  | 5 => '5' | 6 => '6' | 7 => '7' | 8 => '8' | 9 => '9'
  | 10 => 'a' | 11 => 'b' | 12 => 'c' | 13 => 'd' | 14 => 'e' | 15 => 'f'
  | _ => '*'

/-- Decimal rendering of a natural number, most significant digit first.
The fuel argument makes the recursion structural; `natDigits` supplies
sufficient fuel. -/
def natDigitsAux : Nat → Nat → List Char
  | 0, _ => []
  | fuel + 1, n =>
    if n < 10 then [digitChar n]
    else natDigitsAux fuel (n / 10) ++ [digitChar (n % 10)]

/-- Decimal rendering of a natural number. -/
def natDigits (n : Nat) : List Char := natDigitsAux (n + 1) n

/-- Decimal rendering of an integer, as JSON.stringify renders JS numbers
that are integral. -/
def serInt (n : Int) : List Char :=
  if n < 0 then '-' :: natDigits (-n).toNat else natDigits n.toNat

/-- JSON string-literal escape of one character, following JSON.stringify:
quote, backslash and control characters are escaped, everything else is
emitted verbatim. -/
def escChar (c : Char) : List Char :=
  if c = '"' then ['\\', '"']
  else if c = '\\' then ['\\', '\\']
  else if c = '\n' then ['\\', 'n']
  else if c = '\r' then ['\\', 'r']
  else if c = '\t' then ['\\', 't']
  else if c = '\x08' then ['\\', 'b']
  else if c = '\x0c' then ['\\', 'f']
  else if c.toNat < 32 then
    ['\\', 'u', '0', '0', hexChar (c.toNat / 16), hexChar (c.toNat % 16)]
  else [c]

/-- JSON escape of a character sequence. -/
def escString (s : List Char) : List Char := (s.map escChar).flatten

/-- JSON rendering of a string value, quotes included. -/
def serStr (s : List Char) : List Char := '"' :: escString s ++ ['"']

/-- Characters of the JSON literal `null`. -/
def nullChars : List Char := ['n', 'u', 'l', 'l']

/-- Key order used by json-stable-stringify's default comparator: lexicographic
comparison of the key strings. -/
def keyLe (p q : String × List Char) : Prop := p.1 ≤ q.1

instance : DecidableRel keyLe := fun p q => by
  unfold keyLe; infer_instance

instance : IsTotal (String × List Char) keyLe :=
  ⟨fun p q => le_total p.1 q.1⟩

instance : IsTrans (String × List Char) keyLe :=
  ⟨fun _ _ _ h h' => le_trans h h'⟩

/-- Strict key order; entry lists with distinct keys sorted by `keyLe` are
sorted by `keyLt`, which is antisymmetric, making the sorted form unique. -/
def keyLt (p q : String × List Char) : Prop := p.1 < q.1

instance : IsAntisymm (String × List Char) keyLt :=
  ⟨fun _ _ h h' => absurd (lt_trans h h') (lt_irrefl _)⟩

/-- Sort serialized object entries by key, as json-stable-stringify does. -/
def sortEntries (l : List (String × List Char)) : List (String × List Char) :=
  List.insertionSort keyLe l

/-- Comma-join the payloads of a list of serialized entries. -/
def commaJoin : List (String × List Char) → List Char
  | [] => []
  | [(_, e)] => e
  | (_, e) :: rest => e ++ ',' :: commaJoin rest

/- Model of json-stable-stringify applied to a value (`rep = true` models the
plugin's `functionStringifier` replacer, which serializes a function as its
source text; with `rep = false` functions are dropped the way JSON.stringify
drops them: object entries disappear, array items become `null`).  Returns
`none` where JSON.stringify returns `undefined`.  Object keys are emitted in
sorted order; sorting the serialized entries by key yields the same output as
json-stable-stringify's sort-keys-then-serialize order.  `serFields` keeps each
serialized entry paired with its key so that the sort can see the key. -/
mutual

/-- Serialization of one value; see the comment on this mutual block. -/
def serVal (rep : Bool) : JVal → Option (List Char)
  | .null => some nullChars
  | .bool true => some ['t', 'r', 'u', 'e']
  | .bool false => some ['f', 'a', 'l', 's', 'e']
  | .num n => some (serInt n)
  | .str s => some (serStr s.data)
  | .fn src => if rep then some (serStr src.data) else none
  | .arr items => some ('[' :: serItems rep items ++ [']'])
  | .obj fields =>
    some ('\x7b' :: commaJoin (sortEntries (serFields rep fields)) ++ ['\x7d'])

/-- Comma-joined serialization of array items; `undefined` items render as
`null` inside arrays. -/
def serItems (rep : Bool) : List JVal → List Char
  | [] => []
  | [x] => (serVal rep x).getD nullChars
  | x :: xs => (serVal rep x).getD nullChars ++ ',' :: serItems rep xs

/-- Serialized object entries, keyed by their field name, with entries whose
value serializes to `undefined` dropped. -/
def serFields (rep : Bool) : List (String × JVal) → List (String × List Char)
  | [] => []
  | (k, v) :: rest =>
    match serVal rep v with
    | some sv => (k, serStr k.data ++ ':' :: sv) :: serFields rep rest
    | none => serFields rep rest

end

/-- Model of `stringify(options, \x7b replacer: functionStringifier \x7d)` from
`cacheKeyProcessString`: stable stringify with function values serialized as
their source text. -/
def stringifyWithReplacer (o : JObj) : List Char :=
  (serVal true (.obj o)).getD []

/-- Model of `stringify(this.getConfig())`: stable stringify with no replacer. -/
def stringifyPlain (o : JObj) : List Char :=
  (serVal false (.obj o)).getD []

/-- Modelled from the spec: sass-lint's `getConfig(options, configPath)` is the
out-of-scope lint-engine collaborator that "merges raw Configuration with any
externally resolved rule-config"; option values override the resolved file
config, so the merge keeps every file-config entry whose key does not occur in
the options and then appends the options. -/
def getConfig (options fileConfig : JObj) : JObj :=
  fileConfig.filter (fun p => (options.find? (fun q => q.1 == p.1)).isNone)
    ++ options

/-- Modelled from the spec: the md5-hex dependency feeds each part of the array
into the digest in order, so it digests the separator-free concatenation of its
parts; the spec postulates a collision-resistant digest, which is modelled by
the injective map that returns the concatenated input itself. -/
def md5Hex (parts : List (List Char)) : List Char := parts.flatten

/-- Model of `ScssLinter.prototype.cacheKeyProcessString` (lib/index.js
lines 114-129): digest of content, relative path, the stably-serialized raw
options (functions replaced by their source) and the stably-serialized
resolved config. -/
def cacheKeyProcessString (options fileConfig : JObj)
    (content relativePath : String) : List Char :=
  md5Hex [content.data, relativePath.data,
    stringifyWithReplacer options,
    stringifyPlain (getConfig options fileConfig)]

/-- Does a character fall in one of the ranges of a bracket class? -/
def inRanges (ranges : List (Char × Char)) (c : Char) : Bool :=
  ranges.any (fun r => r.1 ≤ c && c ≤ r.2)

/-- Parse the items of a bracket class (everything after the opening bracket,
an optional leading negation already stripped) up to the closing bracket.
Returns the ranges and the rest of the pattern, or `none` when the class is
unterminated. -/
def parseClassItems : List Char → Option (List (Char × Char) × List Char)
  | [] => none
  | ']' :: rest => some ([], rest)
  | a :: '-' :: b :: rest =>
    if b = ']' then some ([(a, a), ('-', '-')], rest)
    else (parseClassItems rest).map (fun p => ((a, b) :: p.1, p.2))
  | a :: rest => (parseClassItems rest).map (fun p => ((a, a) :: p.1, p.2))

/-- Parse a bracket class: optional `!` negation, then the items. -/
def parseClass (p : List Char) : Option (Bool × List (Char × Char) × List Char) :=
  match p with
  | '!' :: rest => (parseClassItems rest).map (fun q => (true, q.1, q.2))
  | rest => (parseClassItems rest).map (fun q => (false, q.1, q.2))

/-- Modelled from the spec: the minimatch dependency provides "shell-glob
semantics (`*`, `**`, `?`, bracket classes)".  `*` and `?` do not cross the
`/` path separator, `**` does.  The fuel argument makes the recursion
structural; every step shortens pattern + input, so the fuel supplied by
`minimatch` below is sufficient. -/
def matchGlobAux : Nat → List Char → List Char → Bool
  | 0, _, _ => false
  | _ + 1, [], s => s.isEmpty
  | fuel + 1, '*' :: '*' :: p, s =>
    matchGlobAux fuel p s ||
      (match s with
       | [] => false
       | _ :: s' => matchGlobAux fuel ('*' :: '*' :: p) s')
  | fuel + 1, '*' :: p, s =>
    matchGlobAux fuel p s ||
      (match s with
       | [] => false
       | c :: s' => c != '/' && matchGlobAux fuel ('*' :: p) s')
  | fuel + 1, '?' :: p, s =>
    (match s with
     | [] => false
     | c :: s' => c != '/' && matchGlobAux fuel p s')
  | fuel + 1, '[' :: p, s =>
    (match parseClass p, s with
     | some (neg, ranges, p'), c :: s' =>
       (inRanges ranges c != neg) && matchGlobAux fuel p' s'
     | _, _ => false)
  | fuel + 1, c :: p, s =>
    (match s with
     | [] => false
     | c' :: s' => c == c' && matchGlobAux fuel p s')

/-- Model of `minimatch(relativePath, pattern)`. -/
def minimatch (relativePath pattern : String) : Bool :=
  matchGlobAux (pattern.data.length + relativePath.data.length + 1)
    pattern.data relativePath.data

/-- Model of the `for (const file of ignore)` loop in `shouldIgnore`: tests
patterns in order and stops at the first match; a non-string element reaching
`minimatch` makes minimatch throw (modelled as `.error ()`). -/
def ignoreLoop (relativePath : String) : List JVal → Except Unit Bool
  | [] => .ok false
  | .str g :: rest =>
    if minimatch relativePath g then .ok true else ignoreLoop relativePath rest
  | _ :: _ => .error ()

/-- Model of `ScssLinter.prototype.shouldIgnore` (lib/index.js lines 220-237)
applied to an already-computed `getConfig()` result: destructures
`config.files.ignore` (destructuring `ignore` from `undefined` or `null`
throws, modelled as `.error ()`; destructuring it from any other non-object
yields `undefined`), then tests a string pattern, or iterates a non-empty
array of patterns, and returns false for every other shape. -/
def shouldIgnore (config : JObj) (relativePath : String) : Except Unit Bool :=
  match List.lookup "files" config with
  | none => .error ()
  | some .null => .error ()
  | some (.obj fileFields) =>
    match List.lookup "ignore" fileFields with
    | some (.str pattern) => .ok (minimatch relativePath pattern)
    | some (.arr patterns) =>
      if patterns.isEmpty then .ok false else ignoreLoop relativePath patterns
    | _ => .ok false
  | some _ => .ok false

/-- Modelled from the spec: "the host's standard extension-based
destination-path rule" of the broccoli-persistent-filter collaborator: the
first configured extension that is a `.ext` suffix of the path determines the
output path, with the suffix replaced by the target extension when one is
set; paths matching no extension produce no destination. -/
def hostDestFilePath (extensions : List String) (targetExtension : Option String)
    (relativePath : String) : Option String :=
  match extensions.find? (fun ext => ('.' :: ext.data).isSuffixOf relativePath.data) with
  | none => none
  | some ext =>
    match targetExtension with
    | none => some relativePath
    | some te =>
      some ⟨relativePath.data.take (relativePath.data.length - ext.data.length) ++ te.data⟩

/-- Extensions the plugin processes (`ScssLinter.prototype.extensions`). -/
def scssExtensions : List String := ["sass", "scss"]

/-- Model of `ScssLinter.prototype.getDestFilePath` (lib/index.js lines
197-206): null for ignored paths, otherwise the host filter's rule. -/
def getDestFilePath (options fileConfig : JObj) (targetExtension : String)
    (relativePath : String) : Except Unit (Option String) :=
  match shouldIgnore (getConfig options fileConfig) relativePath with
  | .error e => .error e
  | .ok true => .ok none
  | .ok false =>
    .ok (hostDestFilePath scssExtensions (some targetExtension) relativePath)

/-- One entry of a sass-lint report's `messages` array. -/
structure SLMessage where
  line : Nat
  column : Nat
  message : String
  ruleId : String

/-- The parts of a sass-lint report the plugin reads.  `errorCount`,
`warningCount` and `messages` model possibly-absent JS properties. -/
structure SLReport where
  errorCount : Option Nat
  warningCount : Option Nat
  messages : Option (List SLMessage)

/-- Model of `render` (dist/test-generators.js lines 18-22): one line per
message, formatted line:column - message (ruleId), joined by newlines. -/
def render (errors : List SLMessage) : String :=
  String.intercalate "\n"
    (errors.map (fun e =>
      toString e.line ++ ":" ++ toString e.column ++ " - " ++ e.message
        ++ " (" ++ e.ruleId ++ ")"))

/-- Model of `var passed = !results.errorCount || results.errorCount.length === 0`
(dist/test-generators.js line 38): `errorCount` is a number or absent, so
`errorCount.length` is `undefined` and the second disjunct is always false;
passed is exactly the falsiness of `errorCount`. -/
def genPassed (results : SLReport) : Bool :=
  match results.errorCount with
  | none => true
  | some n => n == 0

/-- Model of the `messages` string built by the generator wrapper
(dist/test-generators.js lines 40-44): the header followed, whenever
`results.messages` is present (arrays are truthy even when empty), by a blank
line and the rendered messages. -/
def genMessages (relativePath : String) (results : SLReport) : String :=
  relativePath ++ " should pass sass-lint"
    ++ (match results.messages with
        | some ms => "\n\n" ++ render ms
        | none => "")

/-- Model of `testGenerator` (dist/test-generators.js lines 36-48): wraps a
framework-specific callback, passing it the path, the passed flag and the
rendered message block.  The `errors` argument (processString passes
`report.messages`) is accepted but, as in the source, never read: the wrapper
reads `results.messages` instead. -/
def testGenerator (callback : String → Bool → String → String)
    (relativePath : String) (_errors : List SLMessage) (results : SLReport) : String :=
  callback relativePath (genPassed results) (genMessages relativePath results)

/-- Model of the js-string-escape dependency: escapes characters that would
break a single- or double-quoted JS string literal. -/
def jsEscChar (c : Char) : List Char :=
  if c = '"' then ['\\', '"']
  else if c = '\'' then ['\\', '\'']
  else if c = '\\' then ['\\', '\\']
  else if c = '\n' then ['\\', 'n']
  else if c = '\r' then ['\\', 'r']
  else if c = ' ' then ['\\', 'u', '2', '0', '2', '8']
  else if c = ' ' then ['\\', 'u', '2', '0', '2', '9']
  else [c]

/-- Model of `jsStringEscape(s)`. -/
def jsStringEscape (s : String) : String := ⟨(s.data.map jsEscChar).flatten⟩

/-- Coercion of `passed` into the generated source text. -/
def boolText (b : Bool) : String := if b then "true" else "false"

/-- Model of `qunitString` (dist/test-generators.js lines 72-74). -/
def qunitString (relativePath : String) (passed : Bool) (messages : String) : String :=
  "QUnit.module('SCSS Lint | " ++ jsStringEscape relativePath ++ "');\n"
    ++ "QUnit.test('should pass sass-lint', function(assert) \x7b\n"
    ++ "  assert.expect(1);\n"
    ++ "  assert.ok(" ++ boolText passed ++ ", '" ++ jsStringEscape messages ++ "');\n"
    ++ "\x7d);\n"

/-- Model of `mochaString` (dist/test-generators.js lines 98-110). -/
def mochaString (relativePath : String) (passed : Bool) (messages : String) : String :=
  "describe('SCSS Lint | " ++ jsStringEscape relativePath ++ "', function() \x7b\n"
    ++ "  it('should pass sass-lint', function() \x7b\n"
    ++ (if passed then
          "    // SCSS Lint passed\n"
        else
          "    // SCSS Lint failed\n"
            ++ "    var error = new chai.AssertionError('" ++ jsStringEscape messages ++ "');\n"
            ++ "    error.stack = undefined;\n"
            ++ "    throw error;\n")
    ++ "  \x7d);\n"
    ++ "\x7d);\n"

/-- The two generator closures built at the bottom of dist/test-generators.js:
`var qunit = testGenerator(qunitString); var mocha = testGenerator(mochaString);`. -/
inductive GenFun where
  | qunit : GenFun
  | mocha : GenFun
deriving DecidableEq

/-- Rendering function denoted by each generator closure. -/
def genFunApply : GenFun → String → List SLMessage → SLReport → String
  | .qunit => testGenerator qunitString
  | .mocha => testGenerator mochaString

/-- The identifiers bound in the dist/test-generators.js module scope
(its requires, function declarations and `var` statements). -/
def testGeneratorsBindings : List String :=
  ["jsStringEscape", "render", "testGenerator", "qunitString", "mochaString",
   "qunit", "mocha"]

/-- The export object literal of dist/test-generators.js line 115,
`module.exports = \x7b quint: quint, mocha: mocha \x7d`, as a list of
(exported key, referenced identifier) pairs. -/
def testGeneratorsExportSpec : List (String × String) :=
  [("quint", "quint"), ("mocha", "mocha")]

/-- The generator closure an in-scope identifier evaluates to, if any. -/
def bindingGenValue : String → Option GenFun
  | "qunit" => some GenFun.qunit
  | "mocha" => some GenFun.mocha
  | _ => none

/-- Errors the embedded plugin code can throw. -/
inductive JsError where
  | invalidNode : JsError
  | referenceError : JsError
  | couldNotFindGenerator : JsError
deriving DecidableEq

/-- Evaluation of one property of the export object literal: referencing an
identifier that is not bound in the module throws a ReferenceError (the file
is in strict mode). -/
def evalExportEntry (p : String × String) : Except JsError (String × Option GenFun) :=
  if p.2 ∈ testGeneratorsBindings then .ok (p.1, bindingGenValue p.2)
  else .error .referenceError

/-- Model of `require('./test-generators')`: evaluating the module runs its
export statement; the result maps exported keys to the values of the
referenced identifiers. -/
def requireTestGenerators : Except JsError (List (String × Option GenFun)) :=
  testGeneratorsExportSpec.mapM evalExportEntry

/-- The generator style names that resolve successfully at construction. -/
def registeredStyles : List String :=
  match requireTestGenerators with
  | .ok reg => reg.map Prod.fst
  | .error _ => []

/-- The state a successfully constructed ScssLinter instance carries. -/
structure ScssInstance where
  options : JObj
  testGen : Option GenFun := none
  testGenRaw : Option JVal := none
  targetExtension : String := "scss"

/-- Model of the `ScssLinter` constructor (lib/index.js lines 24-60): rejects
an invalid input node, stores the options (copying each option onto the
instance), and when the `testGenerator` option is a string resolves it in the
registry — requiring the registry module (which may itself throw) and
throwing `Could not find ... test generator` when the looked-up value is
falsy; a truthy `testGenerator` switches the target extension. -/
def scssLinterInit (validInputNode : Bool) (options : JObj) :
    Except JsError ScssInstance :=
  if !validInputNode then .error .invalidNode
  else
    match List.lookup "testGenerator" options with
    | some (.str name) =>
      match requireTestGenerators with
      | .error e => .error e
      | .ok reg =>
        match List.lookup name reg with
        | some (some g) =>
          .ok { options := options, testGen := some g,
                targetExtension := "sass-lint-test.js" }
        | some none => .error .couldNotFindGenerator
        | none => .error .couldNotFindGenerator
    | some v =>
      if jsTruthy v then
        .ok { options := options, testGenRaw := some v,
              targetExtension := "sass-lint-test.js" }
      else .ok { options := options }
    | none => .ok { options := options }

/-- Input of `postProcess`: the cached per-file result. -/
structure ProcessResult where
  report : SLReport
  output : String

/-- Return value of `postProcess`: only the output survives. -/
structure PostOutput where
  output : String

/-- JS truthiness of a numeric-or-absent report count. -/
def countTruthy : Option Nat → Bool
  | none => false
  | some n => n != 0

/-- Model of `ScssLinter.prototype.postProcess` (lib/index.js lines 174-180).
The first component collects the reports forwarded to the `outputResults`
reporting collaborator (empty when nothing is forwarded); the second is the
returned value, which carries only `output`. -/
def postProcess (results : ProcessResult) : List SLReport × PostOutput :=
  if countTruthy results.report.errorCount || countTruthy results.report.warningCount then
    ([results.report], { output := results.output })
  else
    ([], { output := results.output })

/- String coercion JS applies to a value that lands in `parts.join(' ')`
(elements of arrays render as their join by commas, with null and undefined
rendering empty inside a join). -/
mutual

/-- Coercion of one value. -/
def jsToString : JVal → String
  | .null => "null"
  | .bool true => "true"
  | .bool false => "false"
  | .num n => toString n
  | .str s => s
  | .fn src => src
  | .arr items => jsJoinItems items
  | .obj _ => "[object Object]"

/-- `Array.prototype.join(',')`, where null renders empty. -/
def jsJoinItems : List JVal → String
  | [] => ""
  | [.null] => ""
  | [x] => jsToString x
  | .null :: xs => "," ++ jsJoinItems xs
  | x :: xs => jsToString x ++ "," ++ jsJoinItems xs

end

/-- Model of the legacy `ScssLinter.prototype._buildCommand` (index.js lines
217-233).  The JS code executes `delete options.bundleExec` on the very
object stored as `this.options` (processString passes `this.options` in),
so the function returns both the assembled command line and the options
object as it is left after the call. -/
def buildCommand (absolutePath : String) (options : JObj) : String × JObj :=
  let parts0 := ["scss-lint", absolutePath]
  let parts1 :=
    if jsTruthy ((List.lookup "bundleExec" options).getD .null) then
      "bundle" :: "exec" :: parts0
    else parts0
  let options' := options.filter (fun p => p.1 != "bundleExec")
  let parts2 :=
    parts1 ++ (options'.map (fun p => ["--" ++ p.1, jsToString p.2])).flatten
  (String.intercalate " " parts2, options')

/-- Numeric value of a lowercase hexadecimal digit character. -/
def hexVal : Char → Nat
  | '0' => 0 | '1' => 1 | '2' => 2 | '3' => 3 | '4' => 4
  | '5' => 5 | '6' => 6 | '7' => 7 | '8' => 8 | '9' => 9
  | 'a' => 10 | 'b' => 11 | 'c' => 12 | 'd' => 13 | 'e' => 14 | 'f' => 15
  | _ => 0

/-- Decoder for one `escChar` unit; used only to prove that `escChar` is a
prefix code. -/
def escDecode : List Char → Option (Char × List Char)
  | [] => none
  | c :: rest =>
    if c = '\\' then
      match rest with
      | [] => none
      | e :: rest' =>
        if e = 'u' then
          match rest' with
          | _ :: _ :: h :: l :: rest'' =>
            some (Char.ofNat (16 * hexVal h + hexVal l), rest'')
          | _ => none
        else
          (match e with
           | '"' => some '"'
           | '\\' => some '\\'
           | 'n' => some '\n'
           | 'r' => some '\r'
           | 't' => some '\t'
           | 'b' => some '\x08'
           | 'f' => some '\x0c'
           | _ => none).map (fun d => (d, rest'))
    else some (c, rest)

/-- Concatenation of the entries before a distinguished entry in a
comma-joined rendering. -/
def cjPre : List (String × List Char) → List Char
  | [] => []
  | (_, e) :: rest => e ++ ',' :: cjPre rest

/-- Concatenation after a distinguished entry in a comma-joined rendering. -/
def cjSuf (l : List (String × List Char)) : List Char :=
  match l with
  | [] => []
  | _ :: _ => ',' :: commaJoin l

/-! Lemmas about the decimal rendering of numbers. -/

theorem natDigitsAux_congr : ∀ n f g, n < f → n < g →
    natDigitsAux f n = natDigitsAux g n := by
  intro n
  induction n using Nat.strong_induction_on with
  | _ n ih =>
    intro f g hf hg
    cases f with
    | zero => omega
    | succ f =>
      cases g with
      | zero => omega
      | succ g =>
        simp only [natDigitsAux]
        by_cases h : n < 10
        · simp [h]
        · have hdiv : n / 10 < n := Nat.div_lt_self (by omega) (by omega)
          simp only [h, if_false]
          rw [ih (n / 10) hdiv f g (by omega) (by omega)]

theorem natDigits_eq (n : Nat) :
    natDigits n = if n < 10 then [digitChar n]
      else natDigits (n / 10) ++ [digitChar (n % 10)] := by
  unfold natDigits
  conv_lhs => rw [natDigitsAux]
  by_cases h : n < 10
  · simp [h]
  · have hdiv : n / 10 < n := Nat.div_lt_self (by omega) (by omega)
    simp only [h, if_false]
    rw [natDigitsAux_congr (n / 10) n (n / 10 + 1) (by omega) (by omega)]

theorem natDigits_ne_nil (n : Nat) : natDigits n ≠ [] := by
  rw [natDigits_eq]
  by_cases h : n < 10 <;> simp [h]

theorem digitChar_isDigit : ∀ d, d < 10 → (digitChar d).isDigit = true := by
  decide

theorem natDigits_isDigit : ∀ n, ∀ c ∈ natDigits n, c.isDigit = true := by
  intro n
  induction n using Nat.strong_induction_on with
  | _ n ih =>
    intro c hc
    rw [natDigits_eq] at hc
    by_cases h : n < 10
    · simp [h] at hc
      subst hc
      exact digitChar_isDigit n h
    · simp [h] at hc
      rcases hc with hc | hc
      · exact ih (n / 10) (Nat.div_lt_self (by omega) (by omega)) c hc
      · subst hc
        exact digitChar_isDigit (n % 10) (by omega)

theorem digitChar_inj : ∀ a, a < 10 → ∀ b, b < 10 →
    digitChar a = digitChar b → a = b := by
  decide

theorem natDigits_inj : ∀ m n, natDigits m = natDigits n → m = n := by
  intro m
  induction m using Nat.strong_induction_on with
  | _ m ih =>
    intro n h
    rw [natDigits_eq m, natDigits_eq n] at h
    by_cases hm : m < 10 <;> by_cases hn : n < 10
    · simp [hm, hn] at h
      exact digitChar_inj m hm n hn h
    · exfalso
      simp [hm, hn] at h
      have hl := congrArg List.length h
      simp [List.length_append] at hl
      exact natDigits_ne_nil (n / 10) hl
    · exfalso
      simp [hm, hn] at h
      have hl := congrArg List.length h
      simp [List.length_append] at hl
      exact natDigits_ne_nil (m / 10) hl
    · simp [hm, hn] at h
      obtain ⟨h1, h2⟩ := List.append_inj' h (by simp)
      have hdiv := ih (m / 10) (Nat.div_lt_self (by omega) (by omega)) (n / 10) h1
      have hmod : m % 10 = n % 10 := by
        have := digitChar_inj (m % 10) (by omega) (n % 10) (by omega)
        simp at h2
        exact this h2
      have hm10 := Nat.div_add_mod m 10
      have hn10 := Nat.div_add_mod n 10
      omega

theorem natDigits_head (n : Nat) :
    ∃ c t, natDigits n = c :: t ∧ c.isDigit = true := by
  cases heq : natDigits n with
  | nil => exact absurd heq (natDigits_ne_nil n)
  | cons c t =>
    refine ⟨c, t, rfl, ?_⟩
    exact natDigits_isDigit n c (by rw [heq]; exact List.mem_cons_self c t)

theorem serInt_head (n : Int) :
    ∃ c t, serInt n = c :: t ∧ (c = '-' ∨ c.isDigit = true) := by
  unfold serInt
  by_cases hn : n < 0
  · exact ⟨'-', natDigits (-n).toNat, by simp [hn], Or.inl rfl⟩
  · obtain ⟨c, t, hct, hd⟩ := natDigits_head n.toNat
    exact ⟨c, t, by simp [hn, hct], Or.inr hd⟩

theorem serInt_inj : ∀ m n : Int, serInt m = serInt n → m = n := by
  intro m n h
  unfold serInt at h
  by_cases hm : m < 0 <;> by_cases hn : n < 0
  · simp only [hm, hn, if_true] at h
    injection h with _ h2
    have h3 := natDigits_inj _ _ h2
    have hm' : ((-m).toNat : Int) = -m := Int.toNat_of_nonneg (by omega)
    have hn' : ((-n).toNat : Int) = -n := Int.toNat_of_nonneg (by omega)
    omega
  · exfalso
    simp only [hm, hn, if_true, if_false] at h
    obtain ⟨c, t, hct, hd⟩ := natDigits_head n.toNat
    rw [hct] at h
    injection h with h1 _
    rw [← h1] at hd
    simp [Char.isDigit] at hd
  · exfalso
    simp only [hm, hn, if_true, if_false] at h
    obtain ⟨c, t, hct, hd⟩ := natDigits_head m.toNat
    rw [hct] at h
    injection h with h1 _
    rw [h1] at hd
    simp [Char.isDigit] at hd
  · simp only [hm, hn, if_false] at h
    have h2 := natDigits_inj _ _ h
    omega

/-! Lemmas about the JSON string escape: `escChar` is a prefix code, so
`escString` and `serStr` are injective. -/

theorem hexVal_hexChar : ∀ d, d < 16 → hexVal (hexChar d) = d := by
  decide

theorem escChar_ne_nil (c : Char) : escChar c ≠ [] := by
  unfold escChar
  repeat' split
  all_goals simp

theorem escDecode_escChar (c : Char) (t : List Char) :
    escDecode (escChar c ++ t) = some (c, t) := by
  unfold escChar
  by_cases h1 : c = '"'
  · subst h1; rfl
  by_cases h2 : c = '\\'
  · subst h2; simp [h1]; rfl
  by_cases h3 : c = '\n'
  · subst h3; simp [h1, h2]; rfl
  by_cases h4 : c = '\r'
  · subst h4; simp [h1, h2, h3]; rfl
  by_cases h5 : c = '\t'
  · subst h5; simp [h1, h2, h3, h4]; rfl
  by_cases h6 : c = '\x08'
  · subst h6; simp [h1, h2, h3, h4, h5]; rfl
  by_cases h7 : c = '\x0c'
  · subst h7; simp [h1, h2, h3, h4, h5, h6]; rfl
  by_cases h8 : c.toNat < 32
  · simp only [h1, h2, h3, h4, h5, h6, h7, h8, if_true, if_false]
    show escDecode ('\\' :: 'u' :: '0' :: '0' :: hexChar (c.toNat / 16) :: hexChar (c.toNat % 16) :: t) = some (c, t)
    unfold escDecode
    simp only [if_pos rfl]
    have hd : hexVal (hexChar (c.toNat / 16)) = c.toNat / 16 :=
      hexVal_hexChar _ (by omega)
    have hm : hexVal (hexChar (c.toNat % 16)) = c.toNat % 16 :=
      hexVal_hexChar _ (by omega)
    simp only [hd, hm]
    have : 16 * (c.toNat / 16) + c.toNat % 16 = c.toNat := Nat.div_add_mod c.toNat 16
    rw [this, Char.ofNat_toNat]
    rfl
  · simp only [h1, h2, h3, h4, h5, h6, h7, h8, if_true, if_false]
    show escDecode (c :: t) = some (c, t)
    unfold escDecode
    simp [h2]

theorem escChar_append_inj {c c' : Char} {A B : List Char}
    (h : escChar c ++ A = escChar c' ++ B) : c = c' ∧ A = B := by
  have h1 := escDecode_escChar c A
  have h2 := escDecode_escChar c' B
  rw [h] at h1
  rw [h1] at h2
  injection h2 with h3
  injection h3 with h4 h5
  exact ⟨h4, h5⟩

theorem escString_nil : escString [] = [] := rfl

theorem escString_cons (c : Char) (s : List Char) :
    escString (c :: s) = escChar c ++ escString s := by
  simp [escString]

theorem escString_inj : ∀ s t, escString s = escString t → s = t := by
  intro s
  induction s with
  | nil =>
    intro t h
    cases t with
    | nil => rfl
    | cons c t' =>
      rw [escString_nil, escString_cons] at h
      exfalso
      cases heq : escChar c with
      | nil => exact escChar_ne_nil c heq
      | cons x xs => rw [heq] at h; simp at h
  | cons c s ih =>
    intro t h
    cases t with
    | nil =>
      rw [escString_nil, escString_cons] at h
      exfalso
      cases heq : escChar c with
      | nil => exact escChar_ne_nil c heq
      | cons x xs => rw [heq] at h; simp at h
    | cons c' t' =>
      rw [escString_cons, escString_cons] at h
      obtain ⟨hc, hs⟩ := escChar_append_inj h
      rw [hc, ih t' hs]

theorem serStr_inj {s t : List Char} (h : serStr s = serStr t) : s = t := by
  unfold serStr at h
  injection h with _ h2
  exact escString_inj s t (List.append_cancel_right h2)

/-! Computation and injectivity lemmas for scalar serializations. -/

theorem serVal_null (rep : Bool) : serVal rep .null = some nullChars := rfl

theorem serVal_boolT (rep : Bool) : serVal rep (.bool true) = some ['t', 'r', 'u', 'e'] := rfl

theorem serVal_boolF (rep : Bool) : serVal rep (.bool false) = some ['f', 'a', 'l', 's', 'e'] := rfl

theorem serVal_num (rep : Bool) (n : Int) : serVal rep (.num n) = some (serInt n) := rfl

theorem serVal_str (rep : Bool) (s : String) : serVal rep (.str s) = some (serStr s.data) := rfl

theorem serVal_fn_rep (s : String) : serVal true (.fn s) = some (serStr s.data) := rfl

theorem serVal_fn_plain (s : String) : serVal false (.fn s) = none := rfl

theorem serVal_obj (rep : Bool) (fields : JObj) :
    serVal rep (.obj fields) =
      some ('\x7b' :: commaJoin (sortEntries (serFields rep fields)) ++ ['\x7d']) := rfl

/-- A scalar serializes the same way with and without the replacer, to `some`. -/
theorem scalar_serVal (v : JVal) (hv : isScalar v = true) (rep : Bool) :
    ∃ sv, serVal rep v = some sv ∧ serVal true v = some sv ∧ serVal false v = some sv := by
  cases v with
  | null => exact ⟨nullChars, rfl, rfl, rfl⟩
  | bool b => cases b with
    | true => exact ⟨['t', 'r', 'u', 'e'], rfl, rfl, rfl⟩
    | false => exact ⟨['f', 'a', 'l', 's', 'e'], rfl, rfl, rfl⟩
  | num n => exact ⟨serInt n, rfl, rfl, rfl⟩
  | str s => exact ⟨serStr s.data, rfl, rfl, rfl⟩
  | fn s => simp [isScalar] at hv
  | arr l => simp [isScalar] at hv
  | obj l => simp [isScalar] at hv

theorem serInt_head_cases {n : Int} {c : Char} {t : List Char}
    (h : serInt n = c :: t) : c = '-' ∨ c.isDigit = true := by
  obtain ⟨c', t', h', hd⟩ := serInt_head n
  rw [h] at h'
  injection h' with h1 _
  rw [h1]
  exact hd

/-- Distinct scalars have distinct serializations (with either replacer flag). -/
theorem scalar_bytes_ne {v v' : JVal} {rep rep' : Bool} {sv sv' : List Char}
    (h : isScalar v = true) (h' : isScalar v' = true) (hne : v ≠ v')
    (hs : serVal rep v = some sv) (hs' : serVal rep' v' = some sv') : sv ≠ sv' := by
  cases v with
  | fn s => simp [isScalar] at h
  | arr l => simp [isScalar] at h
  | obj l => simp [isScalar] at h
  | null =>
    rw [serVal_null] at hs
    injection hs with hs
    subst hs
    cases v' with
    | fn s => simp [isScalar] at h'
    | arr l => simp [isScalar] at h'
    | obj l => simp [isScalar] at h'
    | null => exact absurd rfl hne
    | bool b =>
      cases b with
      | true => rw [serVal_boolT] at hs'; injection hs' with hs'; subst hs'; decide
      | false => rw [serVal_boolF] at hs'; injection hs' with hs'; subst hs'; decide
    | num n =>
      rw [serVal_num] at hs'
      injection hs' with hs'
      subst hs'
      intro heq
      rcases serInt_head_cases heq.symm with hc | hc <;> simp [nullChars] at hc
    | str s =>
      rw [serVal_str] at hs'
      injection hs' with hs'
      subst hs'
      intro heq
      rw [serStr] at heq
      simp [nullChars] at heq
  | bool b =>
    cases v' with
    | fn s => simp [isScalar] at h'
    | arr l => simp [isScalar] at h'
    | obj l => simp [isScalar] at h'
    | null =>
      rw [serVal_null] at hs'
      injection hs' with hs'
      subst hs'
      cases b with
      | true => rw [serVal_boolT] at hs; injection hs with hs; subst hs; decide
      | false => rw [serVal_boolF] at hs; injection hs with hs; subst hs; decide
    | bool b' =>
      cases b with
      | true =>
        cases b' with
        | true => exact absurd rfl hne
        | false =>
          rw [serVal_boolT] at hs
          rw [serVal_boolF] at hs'
          injection hs with hs
          injection hs' with hs'
          subst hs; subst hs'
          decide
      | false =>
        cases b' with
        | false => exact absurd rfl hne
        | true =>
          rw [serVal_boolF] at hs
          rw [serVal_boolT] at hs'
          injection hs with hs
          injection hs' with hs'
          subst hs; subst hs'
          decide
    | num n =>
      rw [serVal_num] at hs'
      injection hs' with hs'
      subst hs'
      cases b with
      | true =>
        rw [serVal_boolT] at hs
        injection hs with hs
        subst hs
        intro heq
        rcases serInt_head_cases heq.symm with hc | hc <;> simp at hc
      | false =>
        rw [serVal_boolF] at hs
        injection hs with hs
        subst hs
        intro heq
        rcases serInt_head_cases heq.symm with hc | hc <;> simp at hc
    | str s =>
      rw [serVal_str] at hs'
      injection hs' with hs'
      subst hs'
      cases b with
      | true =>
        rw [serVal_boolT] at hs
        injection hs with hs
        subst hs
        intro heq
        rw [serStr] at heq
        simp at heq
      | false =>
        rw [serVal_boolF] at hs
        injection hs with hs
        subst hs
        intro heq
        rw [serStr] at heq
        simp at heq
  | num n =>
    rw [serVal_num] at hs
    injection hs with hs
    subst hs
    cases v' with
    | fn s => simp [isScalar] at h'
    | arr l => simp [isScalar] at h'
    | obj l => simp [isScalar] at h'
    | null =>
      rw [serVal_null] at hs'
      injection hs' with hs'
      subst hs'
      intro heq
      rcases serInt_head_cases heq with hc | hc <;> simp [nullChars] at hc
    | bool b =>
      cases b with
      | true =>
        rw [serVal_boolT] at hs'
        injection hs' with hs'
        subst hs'
        intro heq
        rcases serInt_head_cases heq with hc | hc <;> simp at hc
      | false =>
        rw [serVal_boolF] at hs'
        injection hs' with hs'
        subst hs'
        intro heq
        rcases serInt_head_cases heq with hc | hc <;> simp at hc
    | num n' =>
      rw [serVal_num] at hs'
      injection hs' with hs'
      subst hs'
      intro heq
      exact hne (congrArg JVal.num (serInt_inj n n' heq))
    | str s =>
      rw [serVal_str] at hs'
      injection hs' with hs'
      subst hs'
      intro heq
      rw [serStr] at heq
      rcases serInt_head_cases heq with hc | hc <;> simp at hc
  | str s =>
    rw [serVal_str] at hs
    injection hs with hs
    subst hs
    cases v' with
    | fn s' => simp [isScalar] at h'
    | arr l => simp [isScalar] at h'
    | obj l => simp [isScalar] at h'
    | null =>
      rw [serVal_null] at hs'
      injection hs' with hs'
      subst hs'
      intro heq
      rw [serStr] at heq
      simp [nullChars] at heq
    | bool b =>
      cases b with
      | true =>
        rw [serVal_boolT] at hs'
        injection hs' with hs'
        subst hs'
        intro heq
        rw [serStr] at heq
        simp at heq
      | false =>
        rw [serVal_boolF] at hs'
        injection hs' with hs'
        subst hs'
        intro heq
        rw [serStr] at heq
        simp at heq
    | num n =>
      rw [serVal_num] at hs'
      injection hs' with hs'
      subst hs'
      intro heq
      rw [serStr] at heq
      rcases serInt_head_cases heq.symm with hc | hc <;> simp at hc
    | str s' =>
      rw [serVal_str] at hs'
      injection hs' with hs'
      subst hs'
      intro heq
      exact hne (congrArg JVal.str (String.ext (serStr_inj heq)))

/-! Lemmas about the key sort. -/

theorem sortEntries_perm (l : List (String × List Char)) : (sortEntries l).Perm l :=
  List.perm_insertionSort keyLe l

theorem sortEntries_sorted (l : List (String × List Char)) :
    List.Sorted keyLe (sortEntries l) :=
  List.sorted_insertionSort keyLe l

theorem sorted_keyLt_of_nodup : ∀ l : List (String × List Char),
    List.Sorted keyLe l → (l.map Prod.fst).Nodup → List.Sorted keyLt l := by
  intro l
  induction l with
  | nil => intro _ _; exact List.sorted_nil
  | cons p l ih =>
    intro hs hn
    rw [List.Sorted, List.pairwise_cons] at hs ⊢
    simp only [List.map_cons, List.nodup_cons] at hn
    refine ⟨?_, ih hs.2 hn.2⟩
    intro q hq
    have hle : keyLe p q := hs.1 q hq
    have hne : p.1 ≠ q.1 := by
      intro heq
      exact hn.1 (heq ▸ List.mem_map_of_mem Prod.fst hq)
    exact lt_of_le_of_ne hle hne

theorem sortEntries_eq_of_perm {l₁ l₂ : List (String × List Char)}
    (hperm : l₁.Perm l₂) (hnd : (l₁.map Prod.fst).Nodup) :
    sortEntries l₁ = sortEntries l₂ := by
  have hp : (sortEntries l₁).Perm (sortEntries l₂) :=
    ((sortEntries_perm l₁).trans hperm).trans (sortEntries_perm l₂).symm
  have hn₁ : ((sortEntries l₁).map Prod.fst).Nodup :=
    (((sortEntries_perm l₁).map Prod.fst).nodup_iff).mpr hnd
  have hn₂ : ((sortEntries l₂).map Prod.fst).Nodup :=
    ((hp.map Prod.fst).nodup_iff).mp hn₁
  exact List.eq_of_perm_of_sorted hp
    (sorted_keyLt_of_nodup _ (sortEntries_sorted l₁) hn₁)
    (sorted_keyLt_of_nodup _ (sortEntries_sorted l₂) hn₂)

theorem orderedInsert_map_fst_congr :
    ∀ (l₁ l₂ : List (String × List Char)) (p q : String × List Char),
    p.1 = q.1 → l₁.map Prod.fst = l₂.map Prod.fst →
    (List.orderedInsert keyLe p l₁).map Prod.fst =
      (List.orderedInsert keyLe q l₂).map Prod.fst := by
  intro l₁
  induction l₁ with
  | nil =>
    intro l₂ p q hpq h
    have hl₂ : l₂ = [] := by
      cases l₂ with
      | nil => rfl
      | cons b t => simp at h
    subst hl₂
    simp [List.orderedInsert, hpq]
  | cons a t₁ ih =>
    intro l₂ p q hpq h
    cases l₂ with
    | nil => simp at h
    | cons b t₂ =>
      simp only [List.map_cons, List.cons.injEq] at h
      obtain ⟨hab, ht⟩ := h
      have hcond : keyLe p a ↔ keyLe q b := by
        unfold keyLe
        rw [hpq, hab]
      by_cases hc : keyLe p a
      · rw [List.orderedInsert, List.orderedInsert, if_pos hc, if_pos (hcond.mp hc)]
        simp [hpq, hab, ht]
      · rw [List.orderedInsert, List.orderedInsert, if_neg hc,
          if_neg (fun hq => hc (hcond.mpr hq))]
        simp only [List.map_cons, hab, List.cons.injEq, true_and]
        exact ih t₂ p q hpq ht

theorem sortEntries_map_fst_congr :
    ∀ (l₁ l₂ : List (String × List Char)),
    l₁.map Prod.fst = l₂.map Prod.fst →
    (sortEntries l₁).map Prod.fst = (sortEntries l₂).map Prod.fst := by
  intro l₁
  induction l₁ with
  | nil =>
    intro l₂ h
    have hl₂ : l₂ = [] := by
      cases l₂ with
      | nil => rfl
      | cons b t => simp at h
    subst hl₂
    rfl
  | cons a t₁ ih =>
    intro l₂ h
    cases l₂ with
    | nil => simp at h
    | cons b t₂ =>
      simp only [List.map_cons, List.cons.injEq] at h
      obtain ⟨hab, ht⟩ := h
      unfold sortEntries List.insertionSort
      exact orderedInsert_map_fst_congr _ _ a b hab (ih t₂ ht)

/-! Association-list lookup lemmas. -/

theorem lookup_cons_self {β : Type} (k : String) (v : β) (t : List (String × β)) :
    List.lookup k ((k, v) :: t) = some v := by
  rw [List.lookup_cons]
  have h : (k == k) = true := by simp
  rw [h]

theorem lookup_cons_ne {β : Type} {k a : String} (h : k ≠ a) (v : β)
    (t : List (String × β)) : List.lookup k ((a, v) :: t) = List.lookup k t := by
  rw [List.lookup_cons]
  have h' : (k == a) = false := by simp [h]
  rw [h']

theorem lookup_mem {β : Type} :
    ∀ {l : List (String × β)} {k : String} {v : β},
    List.lookup k l = some v → (k, v) ∈ l := by
  intro l
  induction l with
  | nil => intro k v h; simp at h
  | cons p t ih =>
    obtain ⟨a, b⟩ := p
    intro k v h
    by_cases hk : k = a
    · subst hk
      rw [lookup_cons_self] at h
      injection h with h
      rw [h]
      exact List.mem_cons_self _ _
    · rw [lookup_cons_ne hk] at h
      exact List.mem_cons_of_mem (a, b) (ih h)

theorem lookup_eq_some_of_mem {β : Type} :
    ∀ {l : List (String × β)} {k : String} {v : β},
    (l.map Prod.fst).Nodup → (k, v) ∈ l → List.lookup k l = some v := by
  intro l
  induction l with
  | nil => intro k v _ h; simp at h
  | cons p t ih =>
    obtain ⟨a, b⟩ := p
    intro k v hnd hm
    simp only [List.map_cons, List.nodup_cons] at hnd
    rcases List.mem_cons.mp hm with heq | hmem
    · rw [Prod.mk.injEq] at heq
      rw [heq.1, heq.2]
      exact lookup_cons_self a b t
    · have hk : k ≠ a := by
        intro hkp
        exact hnd.1 (hkp ▸ List.mem_map_of_mem Prod.fst hmem)
      rw [lookup_cons_ne hk]
      exact ih hnd.2 hmem

theorem lookup_eq_none_iff {β : Type} :
    ∀ {l : List (String × β)} {k : String},
    List.lookup k l = none ↔ k ∉ l.map Prod.fst := by
  intro l
  induction l with
  | nil => intro k; simp
  | cons p t ih =>
    obtain ⟨a, b⟩ := p
    intro k
    by_cases hk : k = a
    · subst hk
      rw [lookup_cons_self]
      simp
    · rw [lookup_cons_ne hk]
      simp only [List.map_cons, List.mem_cons]
      rw [ih]
      constructor
      · intro h hmem
        rcases hmem with h1 | h2
        · exact hk h1
        · exact h h2
      · intro h hmem
        exact h (Or.inr hmem)

theorem lookup_perm {β : Type} {l₁ l₂ : List (String × β)}
    (hnd : (l₁.map Prod.fst).Nodup) (hp : l₁.Perm l₂) (k : String) :
    List.lookup k l₁ = List.lookup k l₂ := by
  cases h : List.lookup k l₁ with
  | none =>
    have h1 : k ∉ l₁.map Prod.fst := lookup_eq_none_iff.mp h
    have h2 : k ∉ l₂.map Prod.fst := fun hm => h1 ((hp.map Prod.fst).mem_iff.mpr hm)
    exact (lookup_eq_none_iff.mpr h2).symm
  | some v =>
    have h1 : (k, v) ∈ l₂ := hp.mem_iff.mp (lookup_mem h)
    have h2 : (l₂.map Prod.fst).Nodup := ((hp.map Prod.fst).nodup_iff).mp hnd
    exact (lookup_eq_some_of_mem h2 h1).symm

theorem lookup_middle {β : Type} :
    ∀ (A : List (String × β)) (B : List (String × β)) (k : String) (v : β),
    k ∉ A.map Prod.fst → List.lookup k (A ++ (k, v) :: B) = some v := by
  intro A
  induction A with
  | nil => intro B k v _; exact lookup_cons_self k v B
  | cons p t ih =>
    obtain ⟨a, b⟩ := p
    intro B k v hk
    simp only [List.map_cons, List.mem_cons] at hk
    push_neg at hk
    rw [List.cons_append, lookup_cons_ne hk.1]
    exact ih B k v hk.2

theorem lookup_middle_ne {β : Type} :
    ∀ (A : List (String × β)) (B : List (String × β)) (k k' : String) (v v' : β),
    k' ≠ k →
    List.lookup k' (A ++ (k, v) :: B) = List.lookup k' (A ++ (k, v') :: B) := by
  intro A
  induction A with
  | nil =>
    intro B k k' v v' hne
    rw [List.nil_append, List.nil_append, lookup_cons_ne hne, lookup_cons_ne hne]
  | cons p t ih =>
    obtain ⟨a, b⟩ := p
    intro B k k' v v' hne
    by_cases hk : k' = a
    · subst hk
      rw [List.cons_append, List.cons_append, lookup_cons_self, lookup_cons_self]
    · rw [List.cons_append, List.cons_append, lookup_cons_ne hk, lookup_cons_ne hk]
      exact ih B k k' v v' hne

theorem assoc_ext {β : Type} :
    ∀ (l₁ l₂ : List (String × β)),
    l₁.map Prod.fst = l₂.map Prod.fst → (l₁.map Prod.fst).Nodup →
    (∀ k, List.lookup k l₁ = List.lookup k l₂) → l₁ = l₂ := by
  intro l₁
  induction l₁ with
  | nil =>
    intro l₂ hf _ _
    cases l₂ with
    | nil => rfl
    | cons p t => simp at hf
  | cons p t₁ ih =>
    obtain ⟨a, b⟩ := p
    intro l₂ hf hnd hk
    cases l₂ with
    | nil => simp at hf
    | cons q t₂ =>
      obtain ⟨a', b'⟩ := q
      simp only [List.map_cons, List.cons.injEq] at hf
      obtain ⟨hpq, ht⟩ := hf
      subst hpq
      simp only [List.map_cons, List.nodup_cons] at hnd
      have hv : b = b' := by
        have h1 := hk a
        rw [lookup_cons_self, lookup_cons_self] at h1
        injection h1
      have htail : t₁ = t₂ := by
        refine ih t₂ ht hnd.2 ?_
        intro k
        by_cases hkp : k = a
        · subst hkp
          have h1 : k ∉ t₁.map Prod.fst := hnd.1
          have h2 : k ∉ t₂.map Prod.fst := ht ▸ hnd.1
          rw [lookup_eq_none_iff.mpr h1, lookup_eq_none_iff.mpr h2]
        · have h1 := hk k
          rw [lookup_cons_ne hkp, lookup_cons_ne hkp] at h1
          exact h1
      rw [htail, hv]

theorem assoc_delta {β : Type} :
    ∀ (l₁ l₂ : List (String × β)) (k : String) (x₁ x₂ : β),
    l₁.map Prod.fst = l₂.map Prod.fst → (l₁.map Prod.fst).Nodup →
    (∀ k', k' ≠ k → List.lookup k' l₁ = List.lookup k' l₂) →
    List.lookup k l₁ = some x₁ → List.lookup k l₂ = some x₂ →
    ∃ P Q, l₁ = P ++ (k, x₁) :: Q ∧ l₂ = P ++ (k, x₂) :: Q := by
  intro l₁
  induction l₁ with
  | nil => intro l₂ k x₁ x₂ _ _ _ h _; simp at h
  | cons p t₁ ih =>
    obtain ⟨a, b⟩ := p
    intro l₂ k x₁ x₂ hf hnd hoff h₁ h₂
    cases l₂ with
    | nil => simp at hf
    | cons q t₂ =>
      obtain ⟨a', b'⟩ := q
      simp only [List.map_cons, List.cons.injEq] at hf
      obtain ⟨hpq, ht⟩ := hf
      subst hpq
      simp only [List.map_cons, List.nodup_cons] at hnd
      by_cases hak : a = k
      · subst hak
        rw [lookup_cons_self] at h₁ h₂
        injection h₁ with h₁
        injection h₂ with h₂
        have htail : t₁ = t₂ := by
          refine assoc_ext t₁ t₂ ht hnd.2 ?_
          intro k'
          by_cases hk' : k' = a
          · subst hk'
            rw [lookup_eq_none_iff.mpr hnd.1, lookup_eq_none_iff.mpr (ht ▸ hnd.1)]
          · have h3 := hoff k' hk'
            rw [lookup_cons_ne hk', lookup_cons_ne hk'] at h3
            exact h3
        exact ⟨[], t₁, by rw [List.nil_append, h₁],
          by rw [List.nil_append, h₂, htail]⟩
      · have hv : b = b' := by
          have h3 := hoff a hak
          rw [lookup_cons_self, lookup_cons_self] at h3
          injection h3
        have hka : k ≠ a := fun h => hak h.symm
        rw [lookup_cons_ne hka] at h₁ h₂
        have hoff' : ∀ k', k' ≠ k → List.lookup k' t₁ = List.lookup k' t₂ := by
          intro k' hk'
          by_cases hk'a : k' = a
          · subst hk'a
            rw [lookup_eq_none_iff.mpr hnd.1, lookup_eq_none_iff.mpr (ht ▸ hnd.1)]
          · have h3 := hoff k' hk'
            rw [lookup_cons_ne hk'a, lookup_cons_ne hk'a] at h3
            exact h3
        obtain ⟨P, Q, hP₁, hP₂⟩ := ih t₂ k x₁ x₂ ht hnd.2 hoff' h₁ h₂
        exact ⟨(a, b) :: P, Q, by rw [List.cons_append, hP₁],
          by rw [List.cons_append, hP₂, hv]⟩

/-! Structure lemmas for `serFields` and `commaJoin`. -/

theorem serFields_cons (rep : Bool) (k : String) (v : JVal) (rest : JObj) :
    serFields rep ((k, v) :: rest) =
      (match serVal rep v with
       | some sv => (k, serStr k.data ++ ':' :: sv) :: serFields rep rest
       | none => serFields rep rest) := rfl

theorem serFields_append (rep : Bool) :
    ∀ l₁ l₂ : JObj, serFields rep (l₁ ++ l₂) = serFields rep l₁ ++ serFields rep l₂ := by
  intro l₁
  induction l₁ with
  | nil => intro l₂; rfl
  | cons p t ih =>
    obtain ⟨k, v⟩ := p
    intro l₂
    rw [List.cons_append, serFields_cons, serFields_cons]
    cases h : serVal rep v with
    | none => simp only [ih]
    | some sv => simp only [ih, List.cons_append]

theorem serFields_eq_filterMap (rep : Bool) :
    ∀ l : JObj, serFields rep l =
      l.filterMap (fun p =>
        (serVal rep p.2).map (fun sv => (p.1, serStr p.1.data ++ ':' :: sv))) := by
  intro l
  induction l with
  | nil => rfl
  | cons p t ih =>
    obtain ⟨k, v⟩ := p
    rw [serFields_cons, List.filterMap_cons]
    cases h : serVal rep v with
    | none => simp [h, ih]
    | some sv => simp [h, ih]

theorem serFields_perm (rep : Bool) {l₁ l₂ : JObj} (h : l₁.Perm l₂) :
    (serFields rep l₁).Perm (serFields rep l₂) := by
  rw [serFields_eq_filterMap, serFields_eq_filterMap]
  exact h.filterMap _

theorem serFields_map_fst_sublist (rep : Bool) :
    ∀ l : JObj, ((serFields rep l).map Prod.fst).Sublist (l.map Prod.fst) := by
  intro l
  induction l with
  | nil => exact List.Sublist.refl _
  | cons p t ih =>
    obtain ⟨k, v⟩ := p
    rw [serFields_cons]
    cases h : serVal rep v with
    | none =>
      simp only [List.map_cons]
      exact ih.cons k
    | some sv =>
      simp only [List.map_cons]
      exact ih.cons₂ k

theorem serFields_nodup (rep : Bool) {l : JObj} (h : nodupKeys l) :
    ((serFields rep l).map Prod.fst).Nodup :=
  (serFields_map_fst_sublist rep l).nodup h

theorem commaJoin_cons₂ (p q : String × List Char) (L : List (String × List Char)) :
    commaJoin (p :: q :: L) = p.2 ++ ',' :: commaJoin (q :: L) := by
  obtain ⟨a, e⟩ := p
  obtain ⟨b, e'⟩ := q
  rfl

theorem commaJoin_cons_of_ne_nil (p : String × List Char) :
    ∀ L : List (String × List Char), L ≠ [] →
    commaJoin (p :: L) = p.2 ++ ',' :: commaJoin L := by
  intro L hL
  cases L with
  | nil => exact absurd rfl hL
  | cons y L' => exact commaJoin_cons₂ p y L'

theorem commaJoin_middle :
    ∀ (P : List (String × List Char)) (k : String) (x : List Char)
      (Q : List (String × List Char)),
    commaJoin (P ++ (k, x) :: Q) = cjPre P ++ (x ++ cjSuf Q) := by
  intro P
  induction P with
  | nil =>
    intro k x Q
    cases Q with
    | nil => simp [commaJoin, cjPre, cjSuf]
    | cons q Q' =>
      rw [List.nil_append, commaJoin_cons₂ (k, x) q Q']
      simp [cjPre, cjSuf]
  | cons p P' ih =>
    intro k x Q
    rw [List.cons_append, commaJoin_cons_of_ne_nil p _ (by simp), ih]
    obtain ⟨a, e⟩ := p
    simp [cjPre]

/-! The central delta lemma: two objects that differ in the value at exactly
one key serialize to strings sharing a common prefix and suffix around the
two value serializations. -/

theorem stringify_obj_delta (rep : Bool) (pre post : JObj) (k : String)
    (v v' : JVal) (sv sv' : List Char)
    (hnd : nodupKeys (pre ++ (k, v) :: post))
    (hv : serVal rep v = some sv) (hv' : serVal rep v' = some sv') :
    ∃ P Q,
      (serVal rep (.obj (pre ++ (k, v) :: post))).getD [] = P ++ sv ++ Q ∧
      (serVal rep (.obj (pre ++ (k, v') :: post))).getD [] = P ++ sv' ++ Q := by
  have hL : serFields rep (pre ++ (k, v) :: post) =
      serFields rep pre ++ (k, serStr k.data ++ ':' :: sv) :: serFields rep post := by
    rw [serFields_append, serFields_cons, hv]
  have hL' : serFields rep (pre ++ (k, v') :: post) =
      serFields rep pre ++ (k, serStr k.data ++ ':' :: sv') :: serFields rep post := by
    rw [serFields_append, serFields_cons, hv']
  have hndKeys : (pre.map Prod.fst ++ k :: post.map Prod.fst).Nodup := by
    have h := hnd
    unfold nodupKeys jKeys at h
    simpa using h
  have hkpre : k ∉ pre.map Prod.fst := by
    rw [List.nodup_append] at hndKeys
    exact fun hm => hndKeys.2.2 hm (List.mem_cons_self _ _)
  have hkA : k ∉ (serFields rep pre).map Prod.fst := fun hm =>
    hkpre ((serFields_map_fst_sublist rep pre).subset hm)
  have hfst :
      (serFields rep pre ++ (k, serStr k.data ++ ':' :: sv) :: serFields rep post).map
          Prod.fst =
        (serFields rep pre ++ (k, serStr k.data ++ ':' :: sv') :: serFields rep post).map
          Prod.fst := by
    simp
  have hndL :
      ((serFields rep pre ++ (k, serStr k.data ++ ':' :: sv) :: serFields rep post).map
          Prod.fst).Nodup := by
    rw [← hL]
    exact (serFields_map_fst_sublist rep _).nodup hnd
  have hndL' :
      ((serFields rep pre ++ (k, serStr k.data ++ ':' :: sv') :: serFields rep post).map
          Prod.fst).Nodup := hfst ▸ hndL
  have hndS :
      ((sortEntries (serFields rep pre ++ (k, serStr k.data ++ ':' :: sv) ::
          serFields rep post)).map Prod.fst).Nodup :=
    ((sortEntries_perm _).map Prod.fst).nodup_iff.mpr hndL
  have hndS' :
      ((sortEntries (serFields rep pre ++ (k, serStr k.data ++ ':' :: sv') ::
          serFields rep post)).map Prod.fst).Nodup :=
    ((sortEntries_perm _).map Prod.fst).nodup_iff.mpr hndL'
  have hlookS : ∀ k0, List.lookup k0 (sortEntries (serFields rep pre ++
      (k, serStr k.data ++ ':' :: sv) :: serFields rep post)) =
      List.lookup k0 (serFields rep pre ++
      (k, serStr k.data ++ ':' :: sv) :: serFields rep post) :=
    lookup_perm hndS (sortEntries_perm _)
  have hlookS' : ∀ k0, List.lookup k0 (sortEntries (serFields rep pre ++
      (k, serStr k.data ++ ':' :: sv') :: serFields rep post)) =
      List.lookup k0 (serFields rep pre ++
      (k, serStr k.data ++ ':' :: sv') :: serFields rep post) :=
    lookup_perm hndS' (sortEntries_perm _)
  obtain ⟨P₀, Q₀, hS, hS'⟩ :=
    assoc_delta
      (sortEntries (serFields rep pre ++ (k, serStr k.data ++ ':' :: sv) ::
        serFields rep post))
      (sortEntries (serFields rep pre ++ (k, serStr k.data ++ ':' :: sv') ::
        serFields rep post))
      k (serStr k.data ++ ':' :: sv) (serStr k.data ++ ':' :: sv')
      (sortEntries_map_fst_congr _ _ hfst)
      hndS
      (fun k' hk' => ((hlookS k').trans
        (lookup_middle_ne _ _ k k' _ _ hk')).trans (hlookS' k').symm)
      ((hlookS k).trans (lookup_middle _ _ k _ hkA))
      ((hlookS' k).trans (lookup_middle _ _ k _ hkA))
  refine ⟨'\x7b' :: (cjPre P₀ ++ serStr k.data ++ [':']), cjSuf Q₀ ++ ['\x7d'], ?_, ?_⟩
  · rw [serVal_obj, Option.getD_some, hL, hS, commaJoin_middle]
    simp
  · rw [serVal_obj, Option.getD_some, hL', hS', commaJoin_middle]
    simp

/-! Lemmas about the modelled `getConfig` merge. -/

theorem find?_key_isNone_iff (o : JObj) (c : String) :
    (o.find? (fun q => q.1 == c)).isNone = true ↔ c ∉ o.map Prod.fst := by
  rw [Option.isNone_iff_eq_none, List.find?_eq_none]
  constructor
  · intro h hm
    obtain ⟨p, hp, hfst⟩ := List.mem_map.mp hm
    exact h p hp (by simp [hfst])
  · intro h p hp hbeq
    exact h (beq_iff_eq.mp hbeq ▸ List.mem_map_of_mem Prod.fst hp)

theorem getConfig_filter_congr {o o' : JObj}
    (hmem : ∀ c, c ∈ o.map Prod.fst ↔ c ∈ o'.map Prod.fst) (f : JObj) :
    f.filter (fun p => (o.find? (fun q => q.1 == p.1)).isNone) =
      f.filter (fun p => (o'.find? (fun q => q.1 == p.1)).isNone) := by
  refine List.filter_congr ?_
  intro x _
  by_cases h : x.1 ∈ o.map Prod.fst
  · have h1 : ((o.find? (fun q => q.1 == x.1)).isNone) = false := by
      cases hh : (o.find? (fun q => q.1 == x.1)).isNone with
      | false => rfl
      | true => exact absurd h ((find?_key_isNone_iff o x.1).mp hh)
    have h2 : ((o'.find? (fun q => q.1 == x.1)).isNone) = false := by
      cases hh : (o'.find? (fun q => q.1 == x.1)).isNone with
      | false => rfl
      | true => exact absurd ((hmem x.1).mp h) ((find?_key_isNone_iff o' x.1).mp hh)
    rw [h1, h2]
  · have h1 := (find?_key_isNone_iff o x.1).mpr h
    have h2 := (find?_key_isNone_iff o' x.1).mpr (fun hm => h ((hmem x.1).mpr hm))
    rw [h1, h2]

theorem nodupKeys_getConfig {o f : JObj} (ho : nodupKeys o) (hf : nodupKeys f) :
    nodupKeys (getConfig o f) := by
  unfold nodupKeys jKeys getConfig
  rw [List.map_append, List.nodup_append]
  refine ⟨?_, ho, ?_⟩
  · exact ((List.filter_sublist f).map Prod.fst).nodup hf
  · intro x hx
    obtain ⟨p, hp, hfst⟩ := List.mem_map.mp hx
    have hmem := List.mem_filter.mp hp
    have hnotin := (find?_key_isNone_iff o p.1).mp hmem.2
    rw [← hfst]
    exact hnotin

/-- Stable serialization is invariant under permutation of a
duplicate-key-free object. -/
theorem stringify_perm_eq {o o' : JObj} (h : o.Perm o') (hnd : nodupKeys o)
    (rep : Bool) :
    (serVal rep (.obj o)).getD [] = (serVal rep (.obj o')).getD [] := by
  rw [serVal_obj, serVal_obj, Option.getD_some, Option.getD_some,
    sortEntries_eq_of_perm (serFields_perm rep h) (serFields_nodup rep hnd)]

/-- The merged configs obtained from two permuted option objects are
permutations of one another. -/
theorem getConfig_perm {o o' : JObj} (h : o.Perm o') (f : JObj) :
    (getConfig o f).Perm (getConfig o' f) := by
  unfold getConfig
  rw [getConfig_filter_congr (fun c => (h.map Prod.fst).mem_iff) f]
  exact List.Perm.append_left _ h

/-! Final plumbing for the cache-key theorems. -/

theorem stringifyWithReplacer_eq (o : JObj) :
    stringifyWithReplacer o = (serVal true (.obj o)).getD [] := rfl

theorem stringifyPlain_eq (o : JObj) :
    stringifyPlain o = (serVal false (.obj o)).getD [] := rfl

theorem cacheKey_eq (o f : JObj) (c p : String) :
    cacheKeyProcessString o f c p =
      c.data ++ (p.data ++ (stringifyWithReplacer o ++
        stringifyPlain (getConfig o f))) := by
  unfold cacheKeyProcessString md5Hex
  simp

theorem concat_delta_ne_both {sv sv' P₁ Q₁ P₂ Q₂ s1 s1' s2 s2' : List Char}
    (hne : sv ≠ sv')
    (h1 : s1 = P₁ ++ sv ++ Q₁) (h1' : s1' = P₁ ++ sv' ++ Q₁)
    (h2 : s2 = P₂ ++ sv ++ Q₂) (h2' : s2' = P₂ ++ sv' ++ Q₂) :
    s1 ++ s2 ≠ s1' ++ s2' := by
  intro heq
  subst h1 h1' h2 h2'
  by_cases hl : sv.length = sv'.length
  · have hfirst : (P₁ ++ sv ++ Q₁).length = (P₁ ++ sv' ++ Q₁).length := by
      simp [List.length_append, hl]
    obtain ⟨ha, _⟩ := List.append_inj heq hfirst
    exact hne (List.append_cancel_left (List.append_cancel_right ha))
  · have hlen := congrArg List.length heq
    simp [List.length_append] at hlen
    omega

theorem concat_delta_ne_left {sv sv' P₁ Q₁ s1 s1' s2 : List Char}
    (hne : sv ≠ sv')
    (h1 : s1 = P₁ ++ sv ++ Q₁) (h1' : s1' = P₁ ++ sv' ++ Q₁) :
    s1 ++ s2 ≠ s1' ++ s2 := by
  intro heq
  subst h1 h1'
  exact hne (List.append_cancel_left
    (List.append_cancel_right (List.append_cancel_right heq)))

/-- C1: for every content string, relative path and Configuration, calling
`cacheKeyProcessString` twice with identical arguments yields identical
digests, and two Configurations that are equal as key/value mappings but have
different key insertion order (modelled as permuted association lists with
duplicate-free keys, against the same externally resolved file config) yield
the same digest. -/
theorem cacheKey_deterministic_order_independent
    (content relativePath : String) (o o' f : JObj)
    (hperm : o.Perm o') (hnd : nodupKeys o) (hf : nodupKeys f) :
    cacheKeyProcessString o f content relativePath =
        cacheKeyProcessString o f content relativePath ∧
      cacheKeyProcessString o f content relativePath =
        cacheKeyProcessString o' f content relativePath := by
  refine ⟨rfl, ?_⟩
  rw [cacheKey_eq, cacheKey_eq, stringifyWithReplacer_eq, stringifyWithReplacer_eq,
    stringifyPlain_eq, stringifyPlain_eq,
    stringify_perm_eq hperm hnd true,
    stringify_perm_eq (getConfig_perm hperm f) (nodupKeys_getConfig hnd hf) false]

/-- Witness for C1 at a concrete reordered configuration. -/
theorem cacheKey_deterministic_order_independent_witness :
    (([("a", JVal.num 1), ("b", JVal.num 2)] : JObj)).Perm
        [("b", JVal.num 2), ("a", JVal.num 1)] ∧
      nodupKeys [("a", JVal.num 1), ("b", JVal.num 2)] ∧
      cacheKeyProcessString [("a", JVal.num 1), ("b", JVal.num 2)] [] "x" "y.scss" =
        cacheKeyProcessString [("b", JVal.num 2), ("a", JVal.num 1)] [] "x" "y.scss" :=
  have hperm : (([("a", JVal.num 1), ("b", JVal.num 2)] : JObj)).Perm
      [("b", JVal.num 2), ("a", JVal.num 1)] :=
    List.Perm.swap ("b", JVal.num 2) ("a", JVal.num 1) []
  ⟨hperm, by decide,
    (cacheKey_deterministic_order_independent "x" "y.scss" _ _ []
      hperm (by decide) (by decide)).2⟩

/-- C10: two distinct (content, relativePath) pairs under the same fixed
Configuration whose digests collide, because the four digested components are
concatenated without separators. -/
theorem cacheKey_concatenation_collision :
    ∃ c p c' p' : String, (c, p) ≠ (c', p') ∧
      cacheKeyProcessString [] [] c p = cacheKeyProcessString [] [] c' p' :=
  ⟨"a", "b.scss", "ab", ".scss", by decide, by decide⟩

/-- C2: with every other argument fixed, changing the content, the relative
path, the value of one scalar-valued Configuration option (scalar to scalar),
or the source text of one function-valued option changes the digest; the two
option clauses exhibit files with identical content and path but different
Configuration receiving different cache keys. -/
theorem cacheKey_sensitivity (content relativePath : String) (o f : JObj)
    (hnd : nodupKeys o) (hf : nodupKeys f) :
    (∀ content', content ≠ content' →
        cacheKeyProcessString o f content relativePath ≠
          cacheKeyProcessString o f content' relativePath) ∧
    (∀ relativePath', relativePath ≠ relativePath' →
        cacheKeyProcessString o f content relativePath ≠
          cacheKeyProcessString o f content relativePath') ∧
    (∀ pre post k v v', o = pre ++ (k, v) :: post →
        isScalar v = true → isScalar v' = true → v ≠ v' →
        cacheKeyProcessString o f content relativePath ≠
          cacheKeyProcessString (pre ++ (k, v') :: post) f content relativePath) ∧
    (∀ pre post k s s', o = pre ++ (k, JVal.fn s) :: post → s ≠ s' →
        cacheKeyProcessString o f content relativePath ≠
          cacheKeyProcessString (pre ++ (k, JVal.fn s') :: post) f
            content relativePath) := by
  refine ⟨?_, ?_, ?_, ?_⟩
  · intro c' hne heq
    rw [cacheKey_eq, cacheKey_eq] at heq
    exact hne (String.ext (List.append_cancel_right heq))
  · intro p' hne heq
    rw [cacheKey_eq, cacheKey_eq] at heq
    exact hne (String.ext (List.append_cancel_right (List.append_cancel_left heq)))
  · intro pre post k v v' ho hsv hsv' hvv' heq
    subst ho
    obtain ⟨sv, _, hsvT, hsvF⟩ := scalar_serVal v hsv true
    obtain ⟨sv', _, hsv'T, hsv'F⟩ := scalar_serVal v' hsv' true
    have hsvne : sv ≠ sv' := scalar_bytes_ne hsv hsv' hvv' hsvT hsv'T
    obtain ⟨P₁, Q₁, hs1, hs1'⟩ :=
      stringify_obj_delta true pre post k v v' sv sv' hnd hsvT hsv'T
    have hmem : ∀ c, c ∈ ((pre ++ (k, v') :: post) : JObj).map Prod.fst ↔
        c ∈ ((pre ++ (k, v) :: post) : JObj).map Prod.fst := by
      intro c
      simp
    have hFeq := getConfig_filter_congr hmem f
    have hgc : getConfig (pre ++ (k, v) :: post) f =
        (f.filter (fun p =>
            (((pre ++ (k, v) :: post) : JObj).find?
              (fun q => q.1 == p.1)).isNone) ++ pre) ++ (k, v) :: post := by
      unfold getConfig
      rw [List.append_assoc]
    have hgc' : getConfig (pre ++ (k, v') :: post) f =
        (f.filter (fun p =>
            (((pre ++ (k, v) :: post) : JObj).find?
              (fun q => q.1 == p.1)).isNone) ++ pre) ++ (k, v') :: post := by
      unfold getConfig
      rw [hFeq, List.append_assoc]
    have hndM : nodupKeys
        ((f.filter (fun p =>
            (((pre ++ (k, v) :: post) : JObj).find?
              (fun q => q.1 == p.1)).isNone) ++ pre) ++ (k, v) :: post) := by
      rw [← hgc]
      exact nodupKeys_getConfig hnd hf
    obtain ⟨P₂, Q₂, hs2, hs2'⟩ :=
      stringify_obj_delta false _ post k v v' sv sv' hndM hsvF hsv'F
    rw [cacheKey_eq, cacheKey_eq] at heq
    have h1 := List.append_cancel_left (List.append_cancel_left heq)
    exact concat_delta_ne_both hsvne
      (by rw [stringifyWithReplacer_eq]; exact hs1)
      (by rw [stringifyWithReplacer_eq]; exact hs1')
      (by rw [hgc, stringifyPlain_eq]; exact hs2)
      (by rw [hgc', stringifyPlain_eq]; exact hs2') h1
  · intro pre post k s s' ho hss' heq
    subst ho
    have hsvne : serStr s.data ≠ serStr s'.data := by
      intro h
      exact hss' (String.ext (serStr_inj h))
    obtain ⟨P₁, Q₁, hs1, hs1'⟩ :=
      stringify_obj_delta true pre post k (.fn s) (.fn s')
        (serStr s.data) (serStr s'.data) hnd (serVal_fn_rep s) (serVal_fn_rep s')
    have hmem : ∀ c, c ∈ ((pre ++ (k, JVal.fn s') :: post) : JObj).map Prod.fst ↔
        c ∈ ((pre ++ (k, JVal.fn s) :: post) : JObj).map Prod.fst := by
      intro c
      simp
    have hFeq := getConfig_filter_congr hmem f
    have hsf : serFields false (getConfig (pre ++ (k, JVal.fn s) :: post) f) =
        serFields false (getConfig (pre ++ (k, JVal.fn s') :: post) f) := by
      unfold getConfig
      rw [hFeq, serFields_append, serFields_append, serFields_append,
        serFields_append, serFields_cons, serFields_cons,
        serVal_fn_plain, serVal_fn_plain]
    have hs2eq : stringifyPlain (getConfig (pre ++ (k, JVal.fn s) :: post) f) =
        stringifyPlain (getConfig (pre ++ (k, JVal.fn s') :: post) f) := by
      rw [stringifyPlain_eq, stringifyPlain_eq, serVal_obj, serVal_obj, hsf]
    rw [cacheKey_eq, cacheKey_eq, hs2eq] at heq
    have h1 := List.append_cancel_left (List.append_cancel_left heq)
    exact concat_delta_ne_left hsvne
      (by rw [stringifyWithReplacer_eq]; exact hs1)
      (by rw [stringifyWithReplacer_eq]; exact hs1') h1

/-- Witness for C2 at a concrete scalar-option change. -/
theorem cacheKey_sensitivity_witness :
    nodupKeys [("a", JVal.num 1)] ∧
      cacheKeyProcessString [("a", JVal.num 1)] [] "x" "y.scss" ≠
        cacheKeyProcessString [("a", JVal.num 2)] [] "x" "y.scss" :=
  ⟨by decide,
    (cacheKey_sensitivity "x" "y.scss" [("a", JVal.num 1)] [] (by decide)
        (by decide)).2.2.1
      [] [] "a" (JVal.num 1) (JVal.num 2) rfl (by decide) (by decide) (by simp)⟩

/-! Claim theorems for the ignore check and destination path. -/

theorem ignoreLoop_strings (relativePath : String) :
    ∀ globs : List String,
    ignoreLoop relativePath (globs.map JVal.str) =
      .ok ((globs.find? (fun g => minimatch relativePath g)).isSome) := by
  intro globs
  induction globs with
  | nil => rfl
  | cons g t ih =>
    rw [List.map_cons]
    show (if minimatch relativePath g then Except.ok true
      else ignoreLoop relativePath (t.map JVal.str)) = _
    by_cases h : minimatch relativePath g
    · rw [if_pos h, List.find?_cons_of_pos _ h]
      rfl
    · rw [if_neg h, List.find?_cons_of_neg _ h, ih]

theorem find?_isSome_eq_any (p : String → Bool) :
    ∀ l : List String, (l.find? p).isSome = l.any p := by
  intro l
  induction l with
  | nil => rfl
  | cons x t ih =>
    by_cases h : p x
    · rw [List.find?_cons_of_pos _ h]
      simp [h]
    · rw [List.find?_cons_of_neg _ h]
      simp [h, ih]

/-- C3: with the resolved config's `files` value an object, the ignore check
returns true iff the ignore value is a single glob string matching the path,
or a (non-empty) sequence of glob strings at least one of which matches;
empty or absent patterns and patterns that are neither a string nor a
sequence yield false rather than raising; and a sequence is evaluated only up
to its first matching pattern (later elements, of any shape, are never
reached). -/
theorem shouldIgnore_characterization (relativePath : String) (cfg : JObj)
    (fileFields : JObj) (hfiles : List.lookup "files" cfg = some (.obj fileFields)) :
    (∀ pattern : String, List.lookup "ignore" fileFields = some (.str pattern) →
        shouldIgnore cfg relativePath = .ok (minimatch relativePath pattern)) ∧
    (∀ globs : List String,
        List.lookup "ignore" fileFields = some (.arr (globs.map JVal.str)) →
        shouldIgnore cfg relativePath =
          .ok (globs.any (fun g => minimatch relativePath g)) ∧
        shouldIgnore cfg relativePath =
          .ok ((globs.find? (fun g => minimatch relativePath g)).isSome)) ∧
    (List.lookup "ignore" fileFields = some (.arr []) →
        shouldIgnore cfg relativePath = .ok false) ∧
    (∀ iv : JVal, List.lookup "ignore" fileFields = some iv →
        iv ≠ .null → isScalar iv = false → (∀ items : List JVal, iv ≠ .arr items) →
        shouldIgnore cfg relativePath = .ok false) ∧
    (List.lookup "ignore" fileFields = none →
        shouldIgnore cfg relativePath = .ok false) ∧
    (∀ iv : JVal, List.lookup "ignore" fileFields = some iv → isScalar iv = true →
        (∀ pattern : String, iv ≠ .str pattern) →
        shouldIgnore cfg relativePath = .ok false) ∧
    (∀ (pres : List String) (g : String) (post : List JVal),
        List.lookup "ignore" fileFields =
          some (.arr (pres.map JVal.str ++ JVal.str g :: post)) →
        (∀ g' ∈ pres, minimatch relativePath g' = false) →
        minimatch relativePath g = true →
        shouldIgnore cfg relativePath = .ok true) := by
  have hbase : ∀ r, List.lookup "ignore" fileFields = r →
      shouldIgnore cfg relativePath =
        (match r with
         | some (.str pattern) => .ok (minimatch relativePath pattern)
         | some (.arr patterns) =>
           if patterns.isEmpty then .ok false
           else ignoreLoop relativePath patterns
         | _ => .ok false) := by
    intro r hr
    simp only [shouldIgnore, hfiles, hr]
  refine ⟨?_, ?_, ?_, ?_, ?_, ?_, ?_⟩
  · intro pattern h
    rw [hbase _ h]
  · intro globs h
    rw [hbase _ h]
    cases globs with
    | nil => simp [ignoreLoop]
    | cons g t =>
      have hne : (((g :: t).map JVal.str)).isEmpty = false := by simp
      simp only [hne, Bool.false_eq_true, if_false]
      rw [ignoreLoop_strings, find?_isSome_eq_any]
      exact ⟨rfl, by rw [← find?_isSome_eq_any]⟩
  · intro h
    rw [hbase _ h]
    rfl
  · intro iv h hnull hscalar harr
    rw [hbase _ h]
    cases iv with
    | null => exact absurd rfl hnull
    | bool b => simp [isScalar] at hscalar
    | num n => simp [isScalar] at hscalar
    | str s => simp [isScalar] at hscalar
    | fn src => rfl
    | arr items => exact absurd rfl (harr items)
    | obj fields => rfl
  · intro h
    rw [hbase _ h]
  · intro iv h hscalar hstr
    rw [hbase _ h]
    cases iv with
    | null => rfl
    | bool b => rfl
    | num n => rfl
    | str s => exact absurd rfl (hstr s)
    | fn src => simp [isScalar] at hscalar
    | arr items => simp [isScalar] at hscalar
    | obj fields => simp [isScalar] at hscalar
  · intro pres g post h hpres hg
    rw [hbase _ h]
    have hne : (((pres.map JVal.str ++ JVal.str g :: post))).isEmpty = false := by
      cases pres <;> simp
    simp only [hne, Bool.false_eq_true, if_false]
    clear h
    induction pres with
    | nil =>
      rw [List.map_nil, List.nil_append]
      show (if minimatch relativePath g then Except.ok true
        else ignoreLoop relativePath post) = _
      rw [if_pos hg]
    | cons q t ih =>
      rw [List.map_cons, List.cons_append]
      show (if minimatch relativePath q then Except.ok true
        else ignoreLoop relativePath (t.map JVal.str ++ JVal.str g :: post)) = _
      rw [if_neg (by simp [hpres q (List.mem_cons_self q t)]),
        ih (fun g' hg' => hpres g' (List.mem_cons_of_mem q hg')) (by cases t <;> simp)]

/-- Witness for C3 on a concrete ignored path. -/
theorem shouldIgnore_characterization_witness :
    shouldIgnore [("files", JVal.obj [("ignore", JVal.str "vendor/**")])]
        "vendor/reset.scss" =
      .ok (minimatch "vendor/reset.scss" "vendor/**") ∧
    minimatch "vendor/reset.scss" "vendor/**" = true :=
  ⟨(shouldIgnore_characterization "vendor/reset.scss"
      [("files", JVal.obj [("ignore", JVal.str "vendor/**")])]
      [("ignore", JVal.str "vendor/**")] rfl).1 "vendor/**" rfl,
   by decide⟩

/-- C4: getDestFilePath returns null exactly when the path is ignored under
the configured ignore patterns, and otherwise returns what the host's
extension-based destination-path rule returns. -/
theorem getDestFilePath_spec (options fileConfig : JObj)
    (targetExtension relativePath : String) :
    (shouldIgnore (getConfig options fileConfig) relativePath = .ok true →
        getDestFilePath options fileConfig targetExtension relativePath = .ok none) ∧
    (shouldIgnore (getConfig options fileConfig) relativePath = .ok false →
        getDestFilePath options fileConfig targetExtension relativePath =
          .ok (hostDestFilePath scssExtensions (some targetExtension) relativePath)) := by
  constructor
  · intro h
    unfold getDestFilePath
    rw [h]
  · intro h
    unfold getDestFilePath
    rw [h]

/-- Witness for C4: an ignored vendor path maps to null, a plain path maps to
the host rule's result. -/
theorem getDestFilePath_spec_witness :
    getDestFilePath [] [("files", JVal.obj [("ignore", JVal.str "vendor/**")])]
        "scss" "vendor/reset.scss" = .ok none ∧
    getDestFilePath [] [("files", JVal.obj [("ignore", JVal.str "vendor/**")])]
        "scss" "app/main.scss" =
      .ok (hostDestFilePath scssExtensions (some "scss") "app/main.scss") :=
  ⟨(getDestFilePath_spec [] [("files", JVal.obj [("ignore", JVal.str "vendor/**")])]
      "scss" "vendor/reset.scss").1 rfl,
   (getDestFilePath_spec [] [("files", JVal.obj [("ignore", JVal.str "vendor/**")])]
      "scss" "app/main.scss").2 rfl⟩

/-- C5 counterexample: at a report with an empty messages array the generated
message block is the header "x.scss should pass sass-lint" followed by a
blank line — not the claimed header "x.scss should pass lint". -/
theorem testGenerator_message_counterexample :
    genMessages "x.scss"
        { errorCount := some 0, warningCount := none, messages := some [] } =
      "x.scss should pass sass-lint\n\n" ∧
    "x.scss should pass sass-lint\n\n" ≠ "x.scss should pass lint" := by
  exact ⟨rfl, by decide⟩

/-- C5 (amended): the generator wrapper computes passed as true iff
errorCount is zero or absent; the message block is
"relativePath should pass sass-lint", followed — whenever messages is present
as an array, even an empty one — by a blank line and the messages each
rendered "line:column - message (ruleId)" joined by newlines; and the
generator is a pure function of its inputs (the callback applied to the path,
the passed flag and the block). -/
theorem testGenerator_spec (cb : String → Bool → String → String)
    (relativePath : String) (errors : List SLMessage) (r : SLReport) :
    (genPassed r = true ↔ r.errorCount = none ∨ r.errorCount = some 0) ∧
    (r.messages = none →
      genMessages relativePath r = relativePath ++ " should pass sass-lint") ∧
    (∀ ms, r.messages = some ms →
      genMessages relativePath r =
        relativePath ++ " should pass sass-lint" ++ "\n\n" ++
          String.intercalate "\n" (ms.map (fun e =>
            toString e.line ++ ":" ++ toString e.column ++ " - " ++ e.message
              ++ " (" ++ e.ruleId ++ ")"))) ∧
    testGenerator cb relativePath errors r =
      cb relativePath (genPassed r) (genMessages relativePath r) := by
  refine ⟨?_, ?_, ?_, rfl⟩
  · unfold genPassed
    cases r.errorCount with
    | none => simp
    | some n => simp
  · intro h
    unfold genMessages
    rw [h]
    simp
  · intro ms h
    unfold genMessages render
    rw [h]
    exact (String.append_assoc _ "\n\n" _).symm

/-- Witness for C5 at a concrete report carrying one message. -/
theorem testGenerator_spec_witness :
    genMessages "x.scss" ⟨some 1, none, some [⟨1, 2, "m", "r"⟩]⟩ =
      "x.scss" ++ " should pass sass-lint" ++ "\n\n" ++
        String.intercalate "\n"
          (([⟨1, 2, "m", "r"⟩] : List SLMessage).map (fun e =>
            toString e.line ++ ":" ++ toString e.column ++ " - " ++ e.message
              ++ " (" ++ e.ruleId ++ ")")) :=
  (testGenerator_spec (fun _ _ m => m) "x.scss" []
      ⟨some 1, none, some [⟨1, 2, "m", "r"⟩]⟩).2.2.1 _ rfl

/-- C6: postProcess forwards the report to the reporting collaborator exactly
when errorCount or warningCount is truthy, and in every case returns a value
that carries only the output field, unchanged. -/
theorem postProcess_spec (r : ProcessResult) :
    ((postProcess r).1 = [r.report] ↔
        (countTruthy r.report.errorCount || countTruthy r.report.warningCount) = true) ∧
    ((countTruthy r.report.errorCount || countTruthy r.report.warningCount) = false →
        (postProcess r).1 = []) ∧
    (postProcess r).2 = { output := r.output } := by
  unfold postProcess
  by_cases h : (countTruthy r.report.errorCount || countTruthy r.report.warningCount) = true
  · rw [if_pos h]
    exact ⟨⟨fun _ => h, fun _ => rfl⟩, fun hf => absurd h (by simp [hf]), rfl⟩
  · rw [if_neg h]
    exact ⟨⟨fun hl => absurd hl.symm (by simp), fun ht => absurd ht h⟩,
      fun _ => rfl, rfl⟩

/-- Witness for C6 at a clean report. -/
theorem postProcess_spec_witness :
    (postProcess ⟨⟨some 0, none, none⟩, "body"⟩).1 = [] ∧
    (postProcess ⟨⟨some 0, none, none⟩, "body"⟩).2 = ⟨"body"⟩ :=
  ⟨(postProcess_spec ⟨⟨some 0, none, none⟩, "body"⟩).2.1 (by decide),
   (postProcess_spec ⟨⟨some 0, none, none⟩, "body"⟩).2.2⟩

/-- C7: a testGenerator option that is a string not naming a registered
generator style makes construction throw (at construction time — the
constructor returns an error rather than an instance). -/
theorem construction_rejects_unknown_generator (options : JObj) (name : String)
    (hopt : List.lookup "testGenerator" options = some (.str name))
    (_hreg : name ∉ registeredStyles) :
    ∃ e, scssLinterInit true options = .error e := by
  refine ⟨.referenceError, ?_⟩
  simp only [scssLinterInit, Bool.not_true, Bool.false_eq_true, if_false, hopt]
  rw [show requireTestGenerators = Except.error JsError.referenceError from rfl]

/-- Witness for C7 with a concrete unknown style name. -/
theorem construction_rejects_unknown_generator_witness :
    List.lookup "testGenerator" [("testGenerator", JVal.str "nope")] =
      some (JVal.str "nope") ∧
    "nope" ∉ registeredStyles ∧
    ∃ e, scssLinterInit true [("testGenerator", JVal.str "nope")] = .error e :=
  ⟨rfl, by decide,
   construction_rejects_unknown_generator [("testGenerator", JVal.str "nope")]
     "nope" rfl (by decide)⟩

/-- C9: dist/test-generators.js exports the misspelled key "quint" whose
value references the identifier `quint`, which is never bound (the generator
closure is bound to `qunit`), together with "mocha"; consequently no export
is named "qunit", and constructing with style "qunit" hits the module's
ReferenceError instead of resolving the QUnit generator. -/
theorem testGenerators_quint_misspelling :
    ("quint", "quint") ∈ testGeneratorsExportSpec ∧
    "quint" ∉ testGeneratorsBindings ∧
    "qunit" ∈ testGeneratorsBindings ∧
    bindingGenValue "qunit" = some GenFun.qunit ∧
    ("mocha", "mocha") ∈ testGeneratorsExportSpec ∧
    "qunit" ∉ testGeneratorsExportSpec.map Prod.fst ∧
    scssLinterInit true [("testGenerator", JVal.str "qunit")] =
      .error JsError.referenceError :=
  ⟨by decide, by decide, by decide, rfl, by decide, by decide, rfl⟩

/-- C8, evaluated at the failing input: the legacy `_buildCommand` removes
the `bundleExec` key from the very options object that `processString`
passes in (`this.options`), so after one call the stored configuration no
longer has its construction-time keys. -/
theorem buildCommand_mutates_options :
    (buildCommand "a.scss" [("bundleExec", JVal.bool true)]).2 = [] ∧
    (buildCommand "a.scss" [("bundleExec", JVal.bool true)]).1 =
      "bundle exec scss-lint a.scss" ∧
    ([] : JObj) ≠ [("bundleExec", JVal.bool true)] :=
  ⟨rfl, rfl, by simp⟩
